import Mathlib

/-!
# Verification of the NMSSMPheno job-batch generation and templating engine

Shallow embedding, in Lean 4, of the core planning logic of the NMSSMPheno
repository:

* `Common/common.py` — `grouper` (artifact batching via the itertools
  `izip_longest` recipe);
* `Pythia/submit_py8_jobs_htcondor_new.py` — `get_option_in_args`,
  `set_option_in_args`, `generate_filename`, `generate_pythia_job`,
  `create_dag`;
* `MG5_aMC/run_mg5.py` — `make_card` (card templating).

Python strings are modelled as `List Char` (`Tok`), Python lists as `List`,
`None`/exceptions as `Option`.  A function that can raise returns
`Option`/`none` on the raising path.
-/

set_option autoImplicit false

namespace NMSSM

/-! ## Artifact batching: `grouper` from `Common/common.py`

The source builds `args = [iter(iterable)] * n` — `n` references to one shared
iterator — and returns `izip_longest(fillvalue=fillvalue, *args)`.  With a
shared iterator each emitted tuple consumes the next `n` elements, the last
tuple is right-padded with `fillvalue`, and for `n ≤ 0` the iterator list is
empty so `izip_longest` yields nothing. -/

/-- One `izip_longest` round over `n = m + 1` copies of a shared iterator whose
remaining elements are a nonempty list: the tuple holds the next `m + 1`
elements, padded with `fill` once the iterator is exhausted. -/
def grouperGo {α : Type} (fill : α) (m : Nat) : List α → List (List α)
  | [] => []
  | x :: xs =>
    (List.take (m + 1) (x :: xs) ++ List.replicate (m + 1 - (x :: xs).length) fill)
      :: grouperGo fill m (List.drop (m + 1) (x :: xs))
termination_by l => l.length
decreasing_by simp [List.length_drop]; omega

/-- `grouper(iterable, n, fillvalue)` from `Common/common.py`:
`izip_longest(fillvalue=fillvalue, *([iter(iterable)] * n))`.
For `n ≤ 0` the Python expression `[iter(iterable)] * n` is the empty list and
`izip_longest()` is an empty iterator. -/
def grouper {α : Type} (xs : List α) (n : Int) (fill : α) : List (List α) :=
  match n.toNat with
  | 0 => []
  | m + 1 => grouperGo fill m xs

theorem grouperGo_join_eq {α : Type} (fill : α) (m : Nat) :
    ∀ xs : List α,
      (grouperGo fill m xs).flatten
        = xs ++ List.replicate ((m + 1) * (grouperGo fill m xs).length - xs.length) fill
  | [] => by simp [grouperGo]
  | x :: xs => by
    have ih := grouperGo_join_eq fill m (List.drop (m + 1) (x :: xs))
    by_cases h : (x :: xs).length ≤ m + 1
    · have hdrop : List.drop (m + 1) (x :: xs) = [] := List.drop_eq_nil_of_le h
      have htake : List.take (m + 1) (x :: xs) = x :: xs := List.take_of_length_le h
      rw [grouperGo, hdrop, htake]
      rw [show grouperGo fill m ([] : List α) = [] by simp [grouperGo]]
      simp only [List.flatten_cons, List.flatten_nil, List.append_nil, List.length_cons,
        List.length_nil]
      have hcnt : (m + 1) * (0 + 1) - (xs.length + 1) = m + 1 - (xs.length + 1) := by
        omega
      rw [hcnt]
    · push_neg at h
      have h' : m + 1 < xs.length + 1 := by simpa using h
      have hdlen : (List.drop (m + 1) (x :: xs)).length = xs.length + 1 - (m + 1) := by
        simp [List.length_drop]
      rw [grouperGo]
      simp only [List.flatten_cons, List.length_cons]
      rw [ih, hdlen]
      have hrep : m + 1 - (xs.length + 1) = 0 := by omega
      rw [hrep]
      simp only [List.replicate_zero, List.append_nil]
      rw [← List.append_assoc, List.take_append_drop]
      have hcnt : (m + 1) * (grouperGo fill m (List.drop (m + 1) (x :: xs))).length
            - (xs.length + 1 - (m + 1))
          = (m + 1) * ((grouperGo fill m (List.drop (m + 1) (x :: xs))).length + 1)
            - (xs.length + 1) := by
        rw [Nat.mul_succ]
        generalize (m + 1) * (grouperGo fill m (List.drop (m + 1) (x :: xs))).length = K
        omega
      rw [hcnt]
termination_by xs => xs.length
decreasing_by simp [List.length_drop]; omega

theorem grouperGo_group_length {α : Type} (fill : α) (m : Nat) :
    ∀ (xs : List α) (g : List α), g ∈ grouperGo fill m xs → g.length = m + 1
  | [], g, hg => by simp [grouperGo] at hg
  | x :: xs, g, hg => by
    rw [grouperGo] at hg
    rcases List.mem_cons.mp hg with h | h
    · subst h
      simp only [List.length_append, List.length_take, List.length_replicate]
      simp only [List.length_cons]
      omega
    · exact grouperGo_group_length fill m (List.drop (m + 1) (x :: xs)) g h
termination_by xs => xs.length
decreasing_by simp [List.length_drop]; omega

/-- **C1.** For every input sequence `A`, every batch size `n ≥ 1` and every pad
value, `grouper(A, n, pad)` splits `A` into consecutive groups each of length
exactly `n` (hence every group except possibly the last has length exactly
`n`), flattening the output gives `A` followed only by trailing copies of the
pad value (the final group is right-padded with the pad value), and dropping
the pad slots — taking the first `A.length` elements of the flattening —
reproduces `A` exactly, with no drops, no duplicates, and no reordering. -/
theorem grouper_partition {α : Type} (A : List α) (n : Int) (pad : α) (hn : 1 ≤ n) :
    (∀ g ∈ grouper A n pad, (g.length : Int) = n) ∧
    (grouper A n pad).flatten
      = A ++ List.replicate (n.toNat * (grouper A n pad).length - A.length) pad ∧
    ((grouper A n pad).flatten.take A.length = A) := by
  obtain ⟨m, hm⟩ : ∃ m : Nat, n.toNat = m + 1 := by
    have h1 : 1 ≤ n.toNat := by omega
    exact ⟨n.toNat - 1, by omega⟩
  have hgr : grouper A n pad = grouperGo pad m A := by
    unfold grouper; rw [hm]
  have hn' : (n.toNat : Int) = n := Int.toNat_of_nonneg (by omega)
  refine ⟨?_, ?_, ?_⟩
  · intro g hg
    rw [hgr] at hg
    have := grouperGo_group_length pad m A g hg
    rw [this, ← hn', hm]
  · rw [hgr, hm]
    exact grouperGo_join_eq pad m A
  · rw [hgr]
    have h := grouperGo_join_eq pad m A
    rw [h, List.take_append_of_le_length (Nat.le_refl _), List.take_length]

/-- Witness for C1 at `A = [1,2,3,4,5]`, `n = 2`, `pad = 0` (the spec's
scenario `group([f1..f5], 2, None) = [(f1,f2),(f3,f4),(f5,None)]`). -/
theorem grouper_partition_witness :
    (1 : Int) ≤ 2 ∧
      ((∀ g ∈ grouper [1, 2, 3, 4, 5] 2 (0 : Nat), (g.length : Int) = 2) ∧
        (grouper [1, 2, 3, 4, 5] 2 (0 : Nat)).flatten
          = [1, 2, 3, 4, 5]
              ++ List.replicate
                ((2 : Int).toNat * (grouper [1, 2, 3, 4, 5] 2 (0 : Nat)).length - 5) 0 ∧
        ((grouper [1, 2, 3, 4, 5] 2 (0 : Nat)).flatten.take 5 = [1, 2, 3, 4, 5])) :=
  ⟨by decide, by
    have h := grouper_partition [1, 2, 3, 4, 5] 2 (0 : Nat) (by decide)
    simpa using h⟩

/-- **C8 counterexample.** The claim says grouping with batch size `n < 1` fails
with an `InvalidArgument` error.  The source raises nothing on this path:
`[iter(iterable)] * 0` is the empty iterator list and `izip_longest()` is an
empty iterator, so `grouper([1], 0, 0)` silently returns the empty sequence. -/
theorem grouper_zero_counterexample :
    grouper [1] (0 : Int) (0 : Nat) = [] ∧ (0 : Int) < 1 := by
  constructor
  · rfl
  · decide

/-- **C8 (amended).** For every input sequence `A`, every batch size `n < 1` and
every pad value, `grouper(A, n, pad)` raises no error and returns the empty
sequence (the Python source builds `n ≤ 0` copies of the iterator — an empty
list — and `izip_longest` over no iterators is empty). -/
theorem grouper_lt_one_empty {α : Type} (A : List α) (n : Int) (pad : α) (hn : n < 1) :
    grouper A n pad = [] := by
  unfold grouper
  have h : n.toNat = 0 := by omega
  rw [h]

/-- Witness for the amended C8 at `A = [3]`, `n = -2`. -/
theorem grouper_lt_one_empty_witness :
    (-2 : Int) < 1 ∧ grouper [3] (-2 : Int) (0 : Nat) = [] :=
  ⟨by decide, grouper_lt_one_empty [3] (-2) 0 (by decide)⟩

/-! ## ArgVector: `get_option_in_args` / `set_option_in_args` from
`Pythia/submit_py8_jobs_htcondor_new.py`

Tokens are Python strings, modelled as `List Char`.  `get_option_in_args`
raises `KeyError` when the flag is absent (modelled by the outer `Option`
being `none`) and otherwise returns the flag's value or Python `None`
(the inner `Option`). -/

/-- A Python string token. -/
abbrev Tok := List Char

/-- `val.startswith('-')`. -/
def isDash : Tok → Bool
  | '-' :: _ => true
  | _ => false

/-- Python truthiness of an optional string: `None` and `""` are falsy. -/
def truthy : Option Tok → Bool
  | none => false
  | some v => !v.isEmpty

/-- `args.index(flag)`: index of the first occurrence (callers establish
membership, as Python's `.index` raises otherwise). -/
def firstIdx (flag : Tok) : List Tok → Nat
  | [] => 0
  | t :: ts => if t = flag then 0 else firstIdx flag ts + 1

/-- Python `list.insert(n, v)` (appends when `n` is past the end). -/
def insertAt : Nat → Tok → List Tok → List Tok
  | 0, v, l => v :: l
  | _ + 1, v, [] => [v]
  | n + 1, v, t :: ts => t :: insertAt n v ts

/-- `get_option_in_args(args, flag)` from
`Pythia/submit_py8_jobs_htcondor_new.py`:
raises `KeyError` (`none`) if `flag ∉ args`; returns `None` (`some none`) if
`flag` equals the last token or the token after the first occurrence of
`flag` starts with `'-'`; otherwise returns that token. -/
def get_option_in_args (args : List Tok) (flag : Tok) : Option (Option Tok) :=
  if flag ∈ args then
    if args.getLast? = some flag then some none
    else
      if isDash ((args[firstIdx flag args + 1]?).getD []) then some none
      else some (some ((args[firstIdx flag args + 1]?).getD []))
  else none

/-- `set_option_in_args(args, flag, value)` from
`Pythia/submit_py8_jobs_htcondor_new.py`.  Python mutates `args` in place; the
model returns the new list, `none` for the propagated `KeyError`.  When the
current value is truthy it is replaced; otherwise the value is appended after
a trailing flag or inserted before a following flag; when the current value is
the falsy `""`, none of the branches fires and the vector is returned
unchanged. -/
def set_option_in_args (args : List Tok) (flag value : Tok) : Option (List Tok) :=
  match get_option_in_args args flag with
  | none => none
  | some r =>
    if truthy r then some (args.set (firstIdx flag args + 1) value)
    else if args.getLast? = some flag then some (args ++ [value])
    else if isDash ((args[firstIdx flag args + 1]?).getD []) then
      some (insertAt (firstIdx flag args + 1) value args)
    else some args

theorem firstIdx_lt_length {f : Tok} : ∀ {v : List Tok}, f ∈ v → firstIdx f v < v.length
  | t :: ts, h => by
    by_cases ht : t = f
    · simp [firstIdx, ht]
    · have hmem : f ∈ ts := by
        rcases List.mem_cons.mp h with h' | h'
        · exact absurd h'.symm ht
        · exact h'
      have := firstIdx_lt_length hmem
      simp only [firstIdx, if_neg ht, List.length_cons]
      omega

theorem getElem?_firstIdx {f : Tok} : ∀ {v : List Tok}, f ∈ v → v[firstIdx f v]? = some f
  | t :: ts, h => by
    by_cases ht : t = f
    · simp [firstIdx, ht]
    · have hmem : f ∈ ts := by
        rcases List.mem_cons.mp h with h' | h'
        · exact absurd h'.symm ht
        · exact h'
      simp only [firstIdx, if_neg ht, List.getElem?_cons_succ]
      exact getElem?_firstIdx hmem

theorem firstIdx_append_cons (f : Tok) (r : List Tok) :
    ∀ p : List Tok, f ∉ p → firstIdx f (p ++ f :: r) = p.length
  | [], _ => by simp [firstIdx]
  | t :: ts, hp => by
    have ht : t ≠ f := fun h => hp (h ▸ List.mem_cons_self t ts)
    have hts : f ∉ ts := fun h => hp (List.mem_cons_of_mem t h)
    show firstIdx f (t :: (ts ++ f :: r)) = ts.length + 1
    simp only [firstIdx, if_neg ht]
    rw [firstIdx_append_cons f r ts hts]

theorem firstIdx_set_gt (f y : Tok) :
    ∀ (v : List Tok) (j : Nat), firstIdx f v < j → firstIdx f (v.set j y) = firstIdx f v
  | [], _, _ => by simp
  | t :: ts, j, hj => by
    by_cases ht : t = f
    · simp only [firstIdx, if_pos ht] at hj
      obtain ⟨j', rfl⟩ : ∃ j', j = j' + 1 := ⟨j - 1, by omega⟩
      simp [List.set, firstIdx, ht]
    · simp only [firstIdx, if_neg ht] at hj
      obtain ⟨j', rfl⟩ : ∃ j', j = j' + 1 := ⟨j - 1, by omega⟩
      simp only [List.set, firstIdx, if_neg ht]
      rw [firstIdx_set_gt f y ts j' (by omega)]

theorem set_getElem?_self : ∀ (l : List Tok) (i : Nat) (y : Tok), i < l.length →
    (l.set i y)[i]? = some y
  | t :: ts, 0, y, _ => by simp
  | t :: ts, i + 1, y, h => by
    simp only [List.set, List.getElem?_cons_succ]
    exact set_getElem?_self ts i y (by simp at h; omega)

theorem set_getElem?_ne : ∀ (l : List Tok) (i j : Nat) (y : Tok), i ≠ j →
    (l.set i y)[j]? = l[j]?
  | [], _, _, _, _ => by simp
  | t :: ts, 0, j, y, hij => by
    obtain ⟨j', rfl⟩ : ∃ j', j = j' + 1 := ⟨j - 1, by omega⟩
    simp [List.set]
  | t :: ts, i + 1, 0, y, hij => by simp [List.set]
  | t :: ts, i + 1, j + 1, y, hij => by
    simp only [List.set, List.getElem?_cons_succ]
    exact set_getElem?_ne ts i j y (by omega)

theorem getLast?_eq_getElem? : ∀ l : List Tok, l.getLast? = l[l.length - 1]?
  | [] => rfl
  | [t] => rfl
  | t :: t' :: ts => by
    rw [List.getLast?_cons_cons, getLast?_eq_getElem? (t' :: ts)]
    simp only [List.length_cons]
    rw [show ts.length + 1 + 1 - 1 = ts.length + 1 from by omega,
      show ts.length + 1 - 1 = ts.length from by omega,
      List.getElem?_cons_succ]

/-- Characterisation of `get_option_in_args` returning an actual value. -/
theorem get_eq_some_some (v : List Tok) (f x : Tok) :
    get_option_in_args v f = some (some x) ↔
      f ∈ v ∧ v.getLast? ≠ some f ∧ (v[firstIdx f v + 1]?).getD [] = x ∧ isDash x = false := by
  unfold get_option_in_args
  split_ifs with h1 h2 h3
  · simp [h2]
  · constructor
    · intro h
      simp at h
    · rintro ⟨-, -, hval, hdash⟩
      rw [← hval, h3] at hdash
      cases hdash
  · constructor
    · intro h
      have hx : (v[firstIdx f v + 1]?).getD [] = x := by
        simpa using h
      refine ⟨h1, h2, hx, ?_⟩
      rw [← hx]
      simpa using h3
    · rintro ⟨-, -, hval, -⟩
      rw [hval]
  · simp [h1]

theorem mem_of_getElem?' {a : Tok} : ∀ {l : List Tok} {n : Nat}, l[n]? = some a → a ∈ l
  | t :: ts, 0, h => by
    simp at h
    exact h ▸ List.mem_cons_self t ts
  | t :: ts, n + 1, h => by
    rw [List.getElem?_cons_succ] at h
    exact List.mem_cons_of_mem t (mem_of_getElem?' h)

/-- **C6.** `get_option_in_args(vector, flag)` fails with `KeyError` exactly
when the flag is absent from the vector; returns Python `None` when the flag
is the last token; and otherwise, writing the vector as `p ++ flag :: w :: t`
with `flag ∉ p` (so `w` is the token following the first occurrence of the
flag), returns `None` when `w` is itself a flag (starts with `'-'`, a no-value
switch) and returns `w` when it is not. -/
theorem get_option_behaviour (v : List Tok) (f : Tok) :
    (get_option_in_args v f = none ↔ f ∉ v) ∧
    (v.getLast? = some f → get_option_in_args v f = some none) ∧
    (∀ p w t, v = p ++ f :: w :: t → f ∉ p → v.getLast? ≠ some f →
      get_option_in_args v f = some (if isDash w then none else some w)) := by
  refine ⟨?_, ?_, ?_⟩
  · unfold get_option_in_args
    split_ifs with h1 h2 h3 <;> simp [h1]
  · intro hlast
    have hmem : f ∈ v := by
      rw [getLast?_eq_getElem?] at hlast
      exact mem_of_getElem?' hlast
    unfold get_option_in_args
    rw [if_pos hmem, if_pos hlast]
  · rintro p w t rfl hp hlast
    have hmem : f ∈ p ++ f :: w :: t := by simp
    have hidx : firstIdx f (p ++ f :: w :: t) = p.length :=
      firstIdx_append_cons f (w :: t) p hp
    have hval : ((p ++ f :: w :: t)[firstIdx f (p ++ f :: w :: t) + 1]?).getD [] = w := by
      rw [hidx, List.getElem?_append_right (by omega),
        show p.length + 1 - p.length = 1 from by omega]
      simp
    unfold get_option_in_args
    rw [if_pos hmem, if_neg hlast, hval]
    by_cases hd : isDash w <;> simp [hd]

/-- Witness for C6: the spec's own example `get_value(["--foo","bar","--man"],
"--fish")` fails with `NotFound` (`KeyError`), and `get_value` on `"--foo"`
returns `"bar"`. -/
theorem get_option_behaviour_witness :
    get_option_in_args ["--foo".data, "bar".data, "--man".data] "--fish".data = none ∧
      get_option_in_args ["--foo".data, "bar".data, "--man".data] "--foo".data
        = some (some "bar".data) := by
  constructor
  · exact (get_option_behaviour ["--foo".data, "bar".data, "--man".data] "--fish".data).1.mpr
      (by decide)
  · have h := (get_option_behaviour ["--foo".data, "bar".data, "--man".data] "--foo".data).2.2
      [] "bar".data ["--man".data] rfl (by decide) (by decide)
    rw [h]
    decide

/-- **C10.** If a flag is present in the argument vector and the value lookup
finds the empty string as the token immediately following it
(`get_option_in_args` returns `""`, which is falsy), then `set_option_in_args`
returns without raising any error and leaves the vector completely unchanged:
the truthy-replace branch, the append branch and the insert branch all fail to
fire, so the requested value is silently not set. -/
theorem set_option_empty_value_noop (v : List Tok) (f y : Tok)
    (h : get_option_in_args v f = some (some [])) :
    set_option_in_args v f y = some v := by
  obtain ⟨h1, h2, h3, -⟩ := (get_eq_some_some v f []).mp h
  simp only [set_option_in_args, h]
  rw [if_neg (show ¬ truthy (some ([] : Tok)) = true from by decide),
    if_neg h2, h3,
    if_neg (show ¬ isDash [] = true from by decide)]

/-- Witness for C10 at `v = ["--f", ""]`, `f = "--f"`, `y = "x"`. -/
theorem set_option_empty_value_noop_witness :
    get_option_in_args ["--f".data, []] "--f".data = some (some []) ∧
      set_option_in_args ["--f".data, []] "--f".data "x".data = some ["--f".data, []] :=
  ⟨by decide, set_option_empty_value_noop ["--f".data, []] "--f".data "x".data (by decide)⟩

/-- **C5 counterexample.** The claim "after `set_value(v, f, y)`,
`get_value(v, f)` returns `y`" fails for `v = ["--f", "5"]`, `y = "-3"`: the
new value is written into the vector, but the follow-up lookup sees a token
starting with `'-'` and returns Python `None` instead of `y`. -/
theorem set_then_get_counterexample :
    set_option_in_args ["--f".data, "5".data] "--f".data "-3".data
        = some ["--f".data, "-3".data] ∧
      get_option_in_args ["--f".data, "-3".data] "--f".data ≠ some (some "-3".data) := by
  decide

/-- **C5 (amended).** For every argument vector `v` containing flag `f` whose
looked-up value `x` is a nonempty string, and every new value `y` that does not
start with `'-'` and is not the flag itself: `set_option_in_args` replaces the
token after the first occurrence of `f` with `y`, and a subsequent
`get_option_in_args(v, f)` returns `y`. -/
theorem set_then_get (v : List Tok) (f x y : Tok)
    (hget : get_option_in_args v f = some (some x))
    (hx : x ≠ []) (hy : isDash y = false) (hyf : y ≠ f) :
    set_option_in_args v f y = some (v.set (firstIdx f v + 1) y) ∧
      get_option_in_args (v.set (firstIdx f v + 1) y) f = some (some y) := by
  obtain ⟨h1, h2, h3, h4⟩ := (get_eq_some_some v f x).mp hget
  have hiv : v[firstIdx f v]? = some f := getElem?_firstIdx h1
  have hilt : firstIdx f v < v.length := firstIdx_lt_length h1
  have hlen1 : firstIdx f v + 1 < v.length := by
    by_contra hcon
    push_neg at hcon
    have hnone : v[firstIdx f v + 1]? = none := List.getElem?_eq_none (by omega)
    rw [hnone] at h3
    simp at h3
    exact hx h3
  have htr : truthy (some x) = true := by
    cases x with
    | nil => exact absurd rfl hx
    | cons a as => rfl
  have hset : set_option_in_args v f y = some (v.set (firstIdx f v + 1) y) := by
    simp only [set_option_in_args, hget]
    rw [if_pos htr]
  refine ⟨hset, ?_⟩
  have hv'i : (v.set (firstIdx f v + 1) y)[firstIdx f v]? = some f := by
    rw [set_getElem?_ne v (firstIdx f v + 1) (firstIdx f v) y (by omega)]
    exact hiv
  have hmem' : f ∈ v.set (firstIdx f v + 1) y := mem_of_getElem?' hv'i
  have hidx' : firstIdx f (v.set (firstIdx f v + 1) y) = firstIdx f v :=
    firstIdx_set_gt f y v (firstIdx f v + 1) (by omega)
  have hlen' : (v.set (firstIdx f v + 1) y).length = v.length := by simp
  have hval' : ((v.set (firstIdx f v + 1) y)[firstIdx f v + 1]?).getD [] = y := by
    rw [set_getElem?_self v (firstIdx f v + 1) y hlen1]
    rfl
  have hlast' : (v.set (firstIdx f v + 1) y).getLast? ≠ some f := by
    rw [getLast?_eq_getElem?, hlen']
    by_cases hc : firstIdx f v + 1 = v.length - 1
    · rw [← hc, set_getElem?_self v (firstIdx f v + 1) y hlen1]
      intro hcon
      exact hyf (Option.some.inj hcon)
    · rw [set_getElem?_ne v (firstIdx f v + 1) (v.length - 1) y hc]
      rw [← getLast?_eq_getElem?]
      exact h2
  rw [get_eq_some_some]
  refine ⟨hmem', hlast', ?_, hy⟩
  rw [hidx']
  exact hval'

/-- Witness for the amended C5 at `v = ["--foo", "bar"]`, `y = "baz"`. -/
theorem set_then_get_witness :
    set_option_in_args ["--foo".data, "bar".data] "--foo".data "baz".data
        = some ((["--foo".data, "bar".data]).set
            (firstIdx "--foo".data ["--foo".data, "bar".data] + 1) "baz".data) ∧
      get_option_in_args ((["--foo".data, "bar".data]).set
          (firstIdx "--foo".data ["--foo".data, "bar".data] + 1) "baz".data) "--foo".data
        = some (some "baz".data) :=
  set_then_get ["--foo".data, "bar".data] "--foo".data "bar".data "baz".data
    (by decide) (by decide) (by decide) (by decide)

/-! ## CardTemplater: `make_card` from `MG5_aMC/run_mg5.py`

For each `(name, value)` field the source compiles `re.compile(name + r' (.*)$')`
and scans every line of the card (lines keep their trailing `'\n'`, as
`readlines` produces them):

* lines that are empty, start with `'#'`, or do not contain `name` as a
  substring are skipped (`if not line or line.startswith('#') or name not in
  line: continue`);
* otherwise `p.search(line).group(1)` captures the text after the first
  occurrence of `name + ' '` up to the end of the line (re's `$` matches at
  the end or just before a trailing newline, and `.` does not match `'\n'`);
  if the regex does not match, `p.search(line)` is `None` and `.group(1)`
  raises an uncaught `AttributeError` (the `except IndexError` never fires,
  since group 1 always exists in the pattern) — modelled as `none`;
* the line is then rewritten by `line.replace(old_values, str(value))`, which
  replaces **every** occurrence of the captured text in the line.

The new card file is opened for writing only after all fields have been
applied, so a raising render writes nothing. -/

/-- `line.startswith('#')`. -/
def isHash : List Char → Bool
  | '#' :: _ => true
  | _ => false

/-- Python substring containment `pat in s`. -/
def containsSub (s pat : List Char) : Bool :=
  match s with
  | [] => pat.isEmpty
  | c :: rest => pat.isPrefixOf (c :: rest) || containsSub rest pat

/-- The `(.*)$` tail of the pattern, with Python-re semantics: `.` does not
match `'\n'` and `$` matches at the end of the string or just before a
trailing newline. -/
def tailMatch (rest : List Char) : Option (List Char) :=
  if '\n' ∈ rest then
    if rest.getLast? = some '\n' ∧ '\n' ∉ rest.dropLast then some rest.dropLast else none
  else some rest

/-- `re.search(name + r' (.*)$', line)`, returning `group(1)` of the leftmost
match: the text after the first occurrence of `name ++ " "` whose tail can be
matched by `(.*)$`. -/
def searchG1 (name : List Char) : List Char → Option (List Char)
  | [] => none
  | c :: rest =>
    if (name ++ [' ']).isPrefixOf (c :: rest) then
      match tailMatch (List.drop (name.length + 1) (c :: rest)) with
      | some g => some g
      | none => searchG1 name rest
    else searchG1 name rest

/-- Non-overlapping left-to-right replacement, the nonempty-pattern case of
Python `str.replace`.  Structural recursion on a fuel counter so that the
kernel can evaluate it; each step consumes at least one character, so fuel
equal to the string length is always sufficient. -/
def replaceFuel (pat rep : List Char) : Nat → List Char → List Char
  | 0, s => s
  | _ + 1, [] => []
  | fuel + 1, c :: rest =>
    if pat.isPrefixOf (c :: rest) then
      rep ++ replaceFuel pat rep fuel (List.drop (pat.length - 1) rest)
    else c :: replaceFuel pat rep fuel rest

/-- Python `s.replace(pat, rep)` (for the empty pattern, Python inserts `rep`
at every character boundary). -/
def pyReplace (s pat rep : List Char) : List Char :=
  match pat with
  | [] => rep ++ s.flatMap (fun c => c :: rep)
  | _ :: _ => replaceFuel pat rep s.length s

/-- The skip test of `make_card`'s inner loop:
`not line or line.startswith('#') or name not in line`. -/
def lineSkipped (line name : List Char) : Bool :=
  line.isEmpty || isHash line || !(containsSub line name)

/-- Processing of one card line for one `(name, value)` field; `none` models
the uncaught `AttributeError` from `p.search(line).group(1)` when the regex
does not match. -/
def applyFieldLine (name value line : List Char) : Option (List Char) :=
  if lineSkipped line name then some line
  else
    match searchG1 name line with
    | none => none
    | some old => some (pyReplace line old value)

/-- One field applied to every line of the card (the inner `for i, line in
enumerate(card_template)` loop; each index is rewritten independently). -/
def applyField (name value : List Char) : List (List Char) → Option (List (List Char))
  | [] => some []
  | l :: ls =>
    (applyFieldLine name value l).bind fun l' =>
      (applyField name value ls).map fun ls' => l' :: ls'

/-- `make_card` from `MG5_aMC/run_mg5.py`: fields applied sequentially over
the whole line list; `some` is the content written to the output card, `none`
an uncaught exception (in which case the output file is never opened). -/
def make_card (lines : List (List Char)) :
    List (List Char × List Char) → Option (List (List Char))
  | [] => some lines
  | (name, value) :: rest =>
    match applyField name value lines with
    | none => none
    | some lines' => make_card lines' rest

theorem applyField_eq_none (name value line : List Char) :
    ∀ lines : List (List Char), line ∈ lines → applyFieldLine name value line = none →
      applyField name value lines = none
  | l :: ls, hmem, hnone => by
    rcases List.mem_cons.mp hmem with h | h
    · subst h
      unfold applyField
      rw [hnone]
      rfl
    · unfold applyField
      rw [applyField_eq_none name value line ls h hnone]
      cases applyFieldLine name value l <;> rfl

/-- **C7.** If during card rendering a line passes the skip test for a field
name (nonempty, not a comment, contains the name) but the regex
`name + ' (.*)$'` locates no trailing value text, rendering fails
(`p.search(line).group(1)` raises on `None`) and the whole render aborts with
no output card content produced — `make_card` writes the rewritten lines only
after every field has been applied successfully. -/
theorem make_card_malformed_aborts (lines : List (List Char)) (name value : List Char)
    (rest : List (List Char × List Char)) (line : List Char)
    (hline : line ∈ lines)
    (hskip : lineSkipped line name = false)
    (hsearch : searchG1 name line = none) :
    make_card lines ((name, value) :: rest) = none := by
  have hnone : applyFieldLine name value line = none := by
    unfold applyFieldLine
    rw [hskip, hsearch]
    rfl
  unfold make_card
  rw [applyField_eq_none name value line lines hline hnone]

/-- Witness for C7: line `"set nevents\n"` contains `nevents` but has no text
after `"nevents "`, so rendering the field `nevents = 500` aborts. -/
theorem make_card_malformed_aborts_witness :
    searchG1 "nevents".data "set nevents\n".data = none ∧
      make_card ["set nevents\n".data] [("nevents".data, "500".data)] = none :=
  ⟨by decide,
    make_card_malformed_aborts ["set nevents\n".data] "nevents".data "500".data []
      "set nevents\n".data (by decide) (by decide) (by decide)⟩

/-- **C3 counterexample.** The claim says a line where the field name occurs
only inside a longer word is not modified.  The source skip test is substring
containment (`name not in line`) and the regex matches `name` inside a longer
word: rendering the field `mass = 8` on the line `"biomass 5\n"` rewrites it
to `"biomass 8\n"`. -/
theorem make_card_word_counterexample :
    make_card ["biomass 5\n".data] [("mass".data, "8".data)]
        = some ["biomass 8\n".data] ∧
      "biomass 8\n".data ≠ "biomass 5\n".data := by
  decide

theorem tailMatch_some {rest g : List Char} (h : tailMatch rest = some g) :
    rest = g ∨ rest = g ++ ['\n'] := by
  unfold tailMatch at h
  split_ifs at h with h1 h2
  · right
    have h3 : rest.dropLast = g := Option.some.inj h
    have hne : rest ≠ [] := by rintro rfl; simp at h1
    have hg : rest.getLast hne = '\n' := by
      have heq := List.getLast?_eq_getLast rest hne
      rw [heq] at h2
      exact Option.some.inj h2.1
    rw [← h3, ← hg]
    exact (List.dropLast_append_getLast hne).symm
  · exact Or.inl (Option.some.inj h)

theorem searchG1_some (name : List Char) :
    ∀ {line old : List Char}, searchG1 name line = some old →
      ∃ pre : List Char,
        line = pre ++ name ++ ' ' :: old ∨ line = pre ++ name ++ ' ' :: (old ++ ['\n'])
  | c :: rest, old, h => by
    unfold searchG1 at h
    split_ifs at h with hpre
    · split at h
      next g ht =>
        injection h with h2
        subst h2
        have hp : (name ++ [' ']) <+: (c :: rest) := by
          rw [← List.isPrefixOf_iff_prefix]
          exact hpre
        obtain ⟨t, htail⟩ := hp
        have hdrop : List.drop (name.length + 1) (c :: rest) = t := by
          rw [← htail, show name.length + 1 = (name ++ [' ']).length from by simp]
          exact List.drop_left _ _
        rw [hdrop] at ht
        rcases tailMatch_some ht with h3 | h3
        · exact ⟨[], Or.inl (by rw [← htail, h3]; simp)⟩
        · exact ⟨[], Or.inr (by rw [← htail, h3]; simp)⟩
      next ht =>
        obtain ⟨pre, hpre'⟩ := searchG1_some name h
        refine ⟨c :: pre, ?_⟩
        rcases hpre' with h4 | h4
        · left; rw [List.cons_append, List.cons_append, ← h4]
        · right; rw [List.cons_append, List.cons_append, ← h4]
    · obtain ⟨pre, hpre'⟩ := searchG1_some name h
      refine ⟨c :: pre, ?_⟩
      rcases hpre' with h4 | h4
      · left; rw [List.cons_append, List.cons_append, ← h4]
      · right; rw [List.cons_append, List.cons_append, ← h4]

theorem applyField_length (name value : List Char) :
    ∀ {lines out : List (List Char)}, applyField name value lines = some out →
      out.length = lines.length
  | [], out, h => by
    unfold applyField at h
    injection h with h2
    rw [← h2]
  | l :: ls, out, h => by
    unfold applyField at h
    cases hl : applyFieldLine name value l with
    | none => rw [hl] at h; cases h
    | some l' =>
      rw [hl] at h
      simp only [Option.bind] at h
      cases hls : applyField name value ls with
      | none => rw [hls] at h; cases h
      | some ls' =>
        rw [hls] at h
        simp only [Option.map] at h
        injection h with h2
        rw [← h2, List.length_cons, List.length_cons,
          applyField_length name value hls]

theorem applyField_getElem? (name value : List Char) :
    ∀ {lines out : List (List Char)}, applyField name value lines = some out →
      ∀ (i : Nat) (l : List Char), lines[i]? = some l →
        ∃ l', applyFieldLine name value l = some l' ∧ out[i]? = some l'
  | [], out, h, i, l, hi => by simp at hi
  | l0 :: ls, out, h, i, l, hi => by
    unfold applyField at h
    cases hl : applyFieldLine name value l0 with
    | none => rw [hl] at h; cases h
    | some l0' =>
      rw [hl] at h
      simp only [Option.bind] at h
      cases hls : applyField name value ls with
      | none => rw [hls] at h; cases h
      | some ls' =>
        rw [hls] at h
        simp only [Option.map] at h
        injection h with h2
        subst h2
        cases i with
        | zero =>
          simp only [List.getElem?_cons_zero] at hi
          injection hi with h3
          subst h3
          exact ⟨l0', hl, by simp⟩
        | succ i' =>
          rw [List.getElem?_cons_succ] at hi
          obtain ⟨l', hl', hout⟩ := applyField_getElem? name value hls i' l hi
          exact ⟨l', hl', by rw [List.getElem?_cons_succ]; exact hout⟩

theorem applyFieldLine_skip (name value line : List Char)
    (h : lineSkipped line name = true) : applyFieldLine name value line = some line := by
  unfold applyFieldLine
  rw [if_pos h]

theorem applyField_skip_getD (name value : List Char) {lines out : List (List Char)}
    (h : applyField name value lines = some out) (i : Nat)
    (hskip : lineSkipped ((lines[i]?).getD []) name = true) :
    (out[i]?).getD [] = (lines[i]?).getD [] := by
  cases hi : lines[i]? with
  | none =>
    have hlen := applyField_length name value h
    have hlin : lines.length ≤ i := List.getElem?_eq_none_iff.mp hi
    have hout : out[i]? = none := List.getElem?_eq_none (by omega)
    rw [hout]
  | some l =>
    rw [hi] at hskip
    obtain ⟨l', hl', hout⟩ := applyField_getElem? name value h i l hi
    rw [applyFieldLine_skip name value l] at hl'
    · have h2 : l = l' := Option.some.inj hl'
      rw [hout, ← h2]
    · simpa using hskip

/-- **C3 (amended).** Card rendering skips blank lines, lines whose first
character is `'#'`, and lines **not containing the name as a substring** —
such lines are preserved verbatim through the whole render.  A line that does
contain the name — even only inside a longer word — followed somewhere by a
space is rewritten (single-field render): the regex captures the text `old`
following the first occurrence of `name ++ " "` up to the end of the line
(before any trailing newline), so the line decomposes as
`pre ++ name ++ ' ' :: old` (possibly plus a final `'\n'`), and the output
line is `line.replace(old, str(value))`, which replaces every occurrence of
`old` in the line. -/
theorem make_card_semantics :
    ∀ (fields : List (List Char × List Char)) (lines out : List (List Char)),
      make_card lines fields = some out →
      out.length = lines.length ∧
      (∀ i : Nat, (∀ nv ∈ fields, lineSkipped ((lines[i]?).getD []) nv.1 = true) →
        (out[i]?).getD [] = (lines[i]?).getD []) ∧
      (∀ name value, fields = [(name, value)] →
        ∀ (i : Nat) (l : List Char), lines[i]? = some l →
          lineSkipped l name = false →
          ∃ old, searchG1 name l = some old ∧
            (∃ pre : List Char,
              l = pre ++ name ++ ' ' :: old ∨ l = pre ++ name ++ ' ' :: (old ++ ['\n'])) ∧
            out[i]? = some (pyReplace l old value))
  | [], lines, out, h => by
    unfold make_card at h
    injection h with h2
    subst h2
    refine ⟨rfl, fun i _ => rfl, ?_⟩
    intro name value hf
    cases hf
  | (n, v) :: rest, lines, out, h => by
    unfold make_card at h
    cases hmid : applyField n v lines with
    | none => rw [hmid] at h; cases h
    | some mid =>
      rw [hmid] at h
      obtain ⟨ih1, ih2, ih3⟩ := make_card_semantics rest mid out h
      refine ⟨by rw [ih1, applyField_length n v hmid], ?_, ?_⟩
      · intro i hall
        have hn : lineSkipped ((lines[i]?).getD []) n = true :=
          hall (n, v) (List.mem_cons_self _ _)
        have hmidD : (mid[i]?).getD [] = (lines[i]?).getD [] :=
          applyField_skip_getD n v hmid i hn
        have hrest : ∀ nv ∈ rest, lineSkipped ((mid[i]?).getD []) nv.1 = true := by
          intro nv hnv
          rw [hmidD]
          exact hall nv (List.mem_cons_of_mem _ hnv)
        rw [ih2 i hrest, hmidD]
      · intro name value hf i l hi hns
        injection hf with hf1 hf2
        injection hf1 with hfn hfv
        subst hfn
        subst hfv
        subst hf2
        unfold make_card at h
        have h2 : mid = out := Option.some.inj h
        subst h2
        obtain ⟨l', hl', hout⟩ := applyField_getElem? n v hmid i l hi
        unfold applyFieldLine at hl'
        rw [if_neg (show ¬ lineSkipped l n = true by simp [hns])] at hl'
        cases hs : searchG1 n l with
        | none =>
          simp only [hs] at hl'
          cases hl'
        | some old =>
          simp only [hs] at hl'
          have h3 : pyReplace l old v = l' := Option.some.inj hl'
          exact ⟨old, rfl, searchG1_some n hs, by rw [hout, h3]⟩

/-- Witness for the amended C3: card `["nevents 100\n", "# nevents 100\n",
"output foo\n"]` with field `nevents = 500` (the spec's scenario 2): the
comment line and the non-matching line are preserved, the matching line is
rewritten. -/
theorem make_card_semantics_witness :
    make_card ["nevents 100\n".data, "# nevents 100\n".data, "output foo\n".data]
        [("nevents".data, "500".data)]
        = some ["nevents 500\n".data, "# nevents 100\n".data, "output foo\n".data] ∧
      (["nevents 500\n".data, "# nevents 100\n".data, "output foo\n".data] : List (List Char)).length
        = (["nevents 100\n".data, "# nevents 100\n".data, "output foo\n".data] : List (List Char)).length := by
  constructor
  · decide
  · exact (make_card_semantics [("nevents".data, "500".data)]
      ["nevents 100\n".data, "# nevents 100\n".data, "output foo\n".data]
      ["nevents 500\n".data, "# nevents 100\n".data, "output foo\n".data] (by decide)).1

/-! ## Decimal rendering: Python `"%d" % n` / `str(n)` for nonnegative `n`

`natDigits n` is the usual base-10 digit string.  It is written with a fuel
counter (structural recursion, kernel-evaluable); `natDigitsW` is the
well-founded reference version used in proofs. -/

/-- The decimal digit character for `d < 10`. -/
def digitChar : Nat → Char
  | 0 => '0'
  | 1 => '1'
  | 2 => '2'
  | 3 => '3'
  | 4 => '4'
  | 5 => '5'
  | 6 => '6'
  | 7 => '7'
  | 8 => '8'
  | 9 => '9'
  | _ => '?'

def digitVal : Char → Nat
  | '0' => 0
  | '1' => 1
  | '2' => 2
  | '3' => 3
  | '4' => 4
  | '5' => 5
  | '6' => 6
  | '7' => 7
  | '8' => 8
  | '9' => 9
  | _ => 0

def natDigitsFuel : Nat → Nat → List Char
  | 0, n => [digitChar (n % 10)]
  | fuel + 1, n =>
    if n < 10 then [digitChar n]
    else natDigitsFuel fuel (n / 10) ++ [digitChar (n % 10)]

/-- Decimal rendering of a natural number (`"%d" % n` for `n ≥ 0`); fuel `n`
is always sufficient since the value shrinks by a factor 10 per step. -/
def natDigits (n : Nat) : List Char := natDigitsFuel n n

def natDigitsW (n : Nat) : List Char :=
  if n < 10 then [digitChar n] else natDigitsW (n / 10) ++ [digitChar (n % 10)]
termination_by n
decreasing_by exact Nat.div_lt_self (by omega) (by omega)

def parseNat (l : List Char) : Nat := l.foldl (fun a c => 10 * a + digitVal c) 0

theorem natDigitsFuel_eq_W : ∀ fuel n : Nat, n ≤ fuel → natDigitsFuel fuel n = natDigitsW n
  | 0, n, h => by
    have hn : n = 0 := by omega
    subst hn
    rw [natDigitsW]
    rfl
  | fuel + 1, n, h => by
    by_cases h10 : n < 10
    · rw [natDigitsFuel, if_pos h10, natDigitsW, if_pos h10]
    · rw [natDigitsFuel, if_neg h10, natDigitsW, if_neg h10,
        natDigitsFuel_eq_W fuel (n / 10) (by
          have := Nat.div_lt_self (show 0 < n by omega) (show 1 < 10 by omega)
          omega)]

theorem digitVal_digitChar (d : Nat) (h : d < 10) : digitVal (digitChar d) = d := by
  interval_cases d <;> rfl

theorem foldl_natDigitsW (n : Nat) :
    ∀ a : Nat, List.foldl (fun a c => 10 * a + digitVal c) a (natDigitsW n)
      = a * 10 ^ (natDigitsW n).length + n := by
  induction n using Nat.strong_induction_on with
  | _ n ih =>
    intro a
    by_cases h10 : n < 10
    · rw [natDigitsW, if_pos h10]
      simp [digitVal_digitChar n h10]
      ring
    · rw [natDigitsW, if_neg h10]
      have hdiv : n / 10 < n := Nat.div_lt_self (by omega) (by omega)
      rw [List.foldl_append, ih (n / 10) hdiv a]
      simp only [List.foldl_cons, List.foldl_nil, List.length_append,
        List.length_singleton]
      rw [digitVal_digitChar (n % 10) (Nat.mod_lt _ (by omega))]
      have hmod : 10 * (n / 10) + n % 10 = n := Nat.div_add_mod n 10
      have hpow : 10 ^ ((natDigitsW (n / 10)).length + 1)
          = 10 ^ (natDigitsW (n / 10)).length * 10 := pow_succ 10 _
      rw [hpow]
      ring_nf
      omega

theorem parseNat_natDigitsW (n : Nat) : parseNat (natDigitsW n) = n := by
  have h := foldl_natDigitsW n 0
  simpa [parseNat] using h

theorem natDigits_inj {a b : Nat} (h : natDigits a = natDigits b) : a = b := by
  unfold natDigits at h
  rw [natDigitsFuel_eq_W a a le_rfl, natDigitsFuel_eq_W b b le_rfl] at h
  have := congrArg parseNat h
  rwa [parseNat_natDigitsW, parseNat_natDigitsW] at this

theorem mem_natDigitsFuel_digit :
    ∀ (fuel n : Nat) (c : Char), c ∈ natDigitsFuel fuel n →
      c = '0' ∨ c = '1' ∨ c = '2' ∨ c = '3' ∨ c = '4' ∨
        c = '5' ∨ c = '6' ∨ c = '7' ∨ c = '8' ∨ c = '9'
  | 0, n, c, h => by
    simp only [natDigitsFuel, List.mem_singleton] at h
    subst h
    have hlt : n % 10 < 10 := Nat.mod_lt _ (by omega)
    generalize hd : n % 10 = d at hlt ⊢
    interval_cases d <;> decide
  | fuel + 1, n, c, h => by
    rw [natDigitsFuel] at h
    by_cases h10 : n < 10
    · rw [if_pos h10] at h
      simp only [List.mem_singleton] at h
      subst h
      interval_cases n <;> decide
    · rw [if_neg h10] at h
      rcases List.mem_append.mp h with h' | h'
      · exact mem_natDigitsFuel_digit fuel (n / 10) c h'
      · simp only [List.mem_singleton] at h'
        subst h'
        have hlt : n % 10 < 10 := Nat.mod_lt _ (by omega)
        generalize hd : n % 10 = d at hlt ⊢
        interval_cases d <;> decide

theorem natDigits_digit {n : Nat} {c : Char} (h : c ∈ natDigits n) :
    c = '0' ∨ c = '1' ∨ c = '2' ∨ c = '3' ∨ c = '4' ∨
      c = '5' ∨ c = '6' ∨ c = '7' ∨ c = '8' ∨ c = '9' :=
  mem_natDigitsFuel_digit n n c h

theorem natDigits_no_us (n : Nat) : '_' ∉ natDigits n := fun h => by
  rcases natDigits_digit h with h | h | h | h | h | h | h | h | h | h <;> cases h

theorem natDigits_no_dot (n : Nat) : '.' ∉ natDigits n := fun h => by
  rcases natDigits_digit h with h | h | h | h | h | h | h | h | h | h <;> cases h

theorem natDigits_no_slash (n : Nat) : '/' ∉ natDigits n := fun h => by
  rcases natDigits_digit h with h | h | h | h | h | h | h | h | h | h <;> cases h

/-! ## NamingScheme: `generate_filename` and the seed-suffixed output name

`generate_filename(channel, mass, energy, num_events, fmt)` is
`"%s_mass%s_%dTeV_n%s.%s"`; `generate_pythia_job` then derives each job's
output filename as
`"%s_seed%d.%s" % (os.path.splitext(os.path.basename(out_name))[0], job_index, fmt)`. -/

/-- Index of the last occurrence of `c` (Python `str.rfind`, as `Option`). -/
def lastIdxOf (c : Char) : List Char → Option Nat
  | [] => none
  | x :: xs =>
    match lastIdxOf c xs with
    | some i => some (i + 1)
    | none => if x = c then some 0 else none

/-- The stem component of `os.path.splitext` for a path without directory
separators: split at the last `'.'` unless every character before it is a
dot (leading-dots rule). -/
def splitextStem (p : List Char) : List Char :=
  match lastIdxOf '.' p with
  | none => p
  | some i => if (List.take i p).all (fun c => c == '.') then p else List.take i p

/-- `os.path.basename` (POSIX): everything after the last `'/'`. -/
def pyBasename (p : List Char) : List Char :=
  match lastIdxOf '/' p with
  | none => p
  | some i => List.drop (i + 1) p

theorem lastIdxOf_eq_none {c : Char} : ∀ {l : List Char}, c ∉ l → lastIdxOf c l = none
  | [], _ => rfl
  | x :: xs, h => by
    have hx : x ≠ c := fun he => h (he ▸ List.mem_cons_self x xs)
    have hxs : c ∉ xs := fun hm => h (List.mem_cons_of_mem x hm)
    rw [lastIdxOf, lastIdxOf_eq_none hxs]
    simp [hx]

theorem lastIdxOf_append_cons {c : Char} (fmt : List Char) (hf : c ∉ fmt) :
    ∀ X : List Char, lastIdxOf c (X ++ c :: fmt) = some X.length
  | [] => by
    rw [List.nil_append, lastIdxOf, lastIdxOf_eq_none hf]
    simp
  | x :: xs => by
    show lastIdxOf c (x :: (xs ++ c :: fmt)) = some (xs.length + 1)
    rw [lastIdxOf, lastIdxOf_append_cons fmt hf xs]

theorem splitextStem_append {X fmt : List Char} (hf : '.' ∉ fmt)
    (hX : ∃ a ∈ X, a ≠ '.') : splitextStem (X ++ '.' :: fmt) = X := by
  have hnall : ¬ ((List.take X.length (X ++ '.' :: fmt)).all (fun c => c == '.') = true) := by
    rw [List.take_left]
    intro hall
    obtain ⟨a, ha, hane⟩ := hX
    have h2 := List.all_eq_true.mp hall a ha
    rw [beq_iff_eq] at h2
    exact hane h2
  unfold splitextStem
  rw [lastIdxOf_append_cons fmt hf X]
  show (if (List.take X.length (X ++ '.' :: fmt)).all (fun c => c == '.') = true
      then X ++ '.' :: fmt else List.take X.length (X ++ '.' :: fmt)) = X
  rw [if_neg hnall, List.take_left]

theorem pyBasename_no_slash {p : List Char} (h : '/' ∉ p) : pyBasename p = p := by
  unfold pyBasename
  rw [lastIdxOf_eq_none h]

/-- Splitting a concatenation at a unique-first separator occurrence. -/
theorem append_sep_inj {sep : Char} :
    ∀ {a1 b1 a2 b2 : List Char}, sep ∉ a1 → sep ∉ a2 →
      a1 ++ sep :: b1 = a2 ++ sep :: b2 → a1 = a2 ∧ b1 = b2
  | [], b1, [], b2, _, _, h => by
    rw [List.nil_append, List.nil_append] at h
    exact ⟨rfl, by injection h⟩
  | [], b1, a :: as, b2, h1, h2, h => by
    rw [List.nil_append, List.cons_append] at h
    injection h with hx h'
    exact absurd (hx ▸ List.mem_cons_self a as) h2
  | a :: as, b1, [], b2, h1, h2, h => by
    rw [List.nil_append, List.cons_append] at h
    injection h with hx h'
    exact absurd (hx ▸ List.mem_cons_self a as) (by rw [← hx] at h1 ⊢; exact h1)
  | x :: xs, b1, y :: ys, b2, h1, h2, h => by
    rw [List.cons_append, List.cons_append] at h
    injection h with hx h'
    have hrec := append_sep_inj
      (fun hm => h1 (List.mem_cons_of_mem x hm))
      (fun hm => h2 (List.mem_cons_of_mem y hm)) h'
    exact ⟨by rw [hx, hrec.1], hrec.2⟩

/-- `generate_filename` from `Pythia/submit_py8_jobs_htcondor_new.py`:
`"%s_mass%s_%dTeV_n%s.%s" % (channel, str(mass), energy, str(num_events),
fmt)` — `mass` and `num_events` are taken in their `str(...)` form, `energy`
is a nonnegative int. -/
def generate_filename (channel mass : List Char) (energy : Nat)
    (numEvents fmt : List Char) : List Char :=
  channel ++ "_mass".data ++ mass ++ "_".data ++ natDigits energy ++ "TeV_n".data
    ++ numEvents ++ ".".data ++ fmt

/-- The output filename a job actually declares on the auto-generated path of
`generate_pythia_job`:
`"%s_seed%d.%s" % (splitext(basename(generate_filename(...)))[0], job_index, fmt)`. -/
def derivedFilename (channel mass : List Char) (energy : Nat) (numEvents fmt : List Char)
    (seed : Nat) : List Char :=
  splitextStem (pyBasename (generate_filename channel mass energy numEvents fmt))
    ++ "_seed".data ++ natDigits seed ++ ".".data ++ fmt

/-- **C4 counterexample.** Two distinct tuples with the same derived filename:
`("a_mass1", "2", 13, "5", "x", 3)` and `("a", "1_mass2", 13, "5", "x", 3)`
both yield `a_mass1_mass2_13TeV_n5_seed3.x` — the claim's unconditional
injectivity fails because `'_'` inside a channel or mass string lets fields
bleed into each other. -/
theorem generate_filename_counterexample :
    generate_filename "a_mass1".data "2".data 13 "5".data "x".data
        = generate_filename "a".data "1_mass2".data 13 "5".data "x".data ∧
      derivedFilename "a_mass1".data "2".data 13 "5".data "x".data 3
        = derivedFilename "a".data "1_mass2".data 13 "5".data "x".data 3 ∧
      ("a_mass1".data, "2".data) ≠ ("a".data, "1_mass2".data) := by
  decide

theorem derivedFilename_normal (c m : List Char) (e : Nat) (cnt fmt : List Char)
    (hc : '/' ∉ c) (hm : '/' ∉ m) (hcnt : '/' ∉ cnt) (hfmt : '/' ∉ fmt)
    (hdot : '.' ∉ fmt) (s : Nat) :
    derivedFilename c m e cnt fmt s
      = c ++ '_' :: (("mass".data ++ m)
          ++ '_' :: ((natDigits e ++ "TeV".data)
            ++ '_' :: (('n' :: cnt)
              ++ '_' :: (("seed".data ++ natDigits s) ++ '.' :: fmt)))) := by
  have hgen : generate_filename c m e cnt fmt
      = (c ++ "_mass".data ++ m ++ "_".data ++ natDigits e ++ "TeV_n".data ++ cnt)
          ++ '.' :: fmt := by
    unfold generate_filename
    simp [List.append_assoc]
  have hnos : '/' ∉ (c ++ "_mass".data ++ m ++ "_".data ++ natDigits e
      ++ "TeV_n".data ++ cnt) ++ '.' :: fmt := by
    intro h
    simp only [List.append_assoc, List.mem_append, List.mem_cons] at h
    rcases h with h | h | h | h | h | h | h | h | h
    · exact hc h
    · revert h; decide
    · exact hm h
    · revert h; decide
    · exact natDigits_no_slash e h
    · revert h; decide
    · exact hcnt h
    · exact absurd h (by decide)
    · exact hfmt h
  have hstem : splitextStem (pyBasename (generate_filename c m e cnt fmt))
      = c ++ "_mass".data ++ m ++ "_".data ++ natDigits e ++ "TeV_n".data ++ cnt := by
    rw [hgen, pyBasename_no_slash hnos]
    refine splitextStem_append hdot ⟨'_', ?_, by decide⟩
    simp only [List.append_assoc, List.mem_append]
    right; left
    decide
  unfold derivedFilename
  rw [hstem]
  have h1 : "_mass".data = '_' :: "mass".data := rfl
  have h2 : "_".data = ['_'] := rfl
  have h3 : "TeV_n".data = "TeV".data ++ '_' :: ['n'] := rfl
  have h4 : "_seed".data = '_' :: "seed".data := rfl
  have h5 : ".".data = ['.'] := rfl
  rw [h1, h2, h3, h4, h5]
  simp [List.append_assoc]

/-- **C4 (amended).** The derived output filenames are injective on tuples
`(channel, mass, energy, count, extension, seed)` **provided** none of the
string components contains `'_'` or `'/'` and the extension contains no `'.'`
(as is the case for the extensions `hepmc`/`root`/`lhe` the planner uses):
under these conditions two distinct tuples always yield distinct filenames.
Without them injectivity fails (see the counterexample). -/
theorem derivedFilename_inj
    (c1 m1 cnt1 fmt1 c2 m2 cnt2 fmt2 : List Char) (e1 e2 s1 s2 : Nat)
    (hc1u : '_' ∉ c1) (hm1u : '_' ∉ m1) (hcnt1u : '_' ∉ cnt1)
    (hc1s : '/' ∉ c1) (hm1s : '/' ∉ m1) (hcnt1s : '/' ∉ cnt1) (hfmt1s : '/' ∉ fmt1)
    (hfmt1d : '.' ∉ fmt1)
    (hc2u : '_' ∉ c2) (hm2u : '_' ∉ m2) (hcnt2u : '_' ∉ cnt2)
    (hc2s : '/' ∉ c2) (hm2s : '/' ∉ m2) (hcnt2s : '/' ∉ cnt2) (hfmt2s : '/' ∉ fmt2)
    (hfmt2d : '.' ∉ fmt2)
    (heq : derivedFilename c1 m1 e1 cnt1 fmt1 s1 = derivedFilename c2 m2 e2 cnt2 fmt2 s2) :
    c1 = c2 ∧ m1 = m2 ∧ e1 = e2 ∧ cnt1 = cnt2 ∧ fmt1 = fmt2 ∧ s1 = s2 := by
  rw [derivedFilename_normal c1 m1 e1 cnt1 fmt1 hc1s hm1s hcnt1s hfmt1s hfmt1d s1,
    derivedFilename_normal c2 m2 e2 cnt2 fmt2 hc2s hm2s hcnt2s hfmt2s hfmt2d s2] at heq
  obtain ⟨hcq, heq2⟩ := append_sep_inj hc1u hc2u heq
  have hmu1 : '_' ∉ "mass".data ++ m1 := by
    intro h
    rcases List.mem_append.mp h with h | h
    · revert h; decide
    · exact hm1u h
  have hmu2 : '_' ∉ "mass".data ++ m2 := by
    intro h
    rcases List.mem_append.mp h with h | h
    · revert h; decide
    · exact hm2u h
  obtain ⟨hmq, heq3⟩ := append_sep_inj hmu1 hmu2 heq2
  have hmq' : m1 = m2 := List.append_cancel_left hmq
  have heu1 : '_' ∉ natDigits e1 ++ "TeV".data := by
    intro h
    rcases List.mem_append.mp h with h | h
    · exact natDigits_no_us e1 h
    · revert h; decide
  have heu2 : '_' ∉ natDigits e2 ++ "TeV".data := by
    intro h
    rcases List.mem_append.mp h with h | h
    · exact natDigits_no_us e2 h
    · revert h; decide
  obtain ⟨heqE, heq4⟩ := append_sep_inj heu1 heu2 heq3
  have heq' : e1 = e2 := natDigits_inj (List.append_cancel_right heqE)
  have hnu1 : '_' ∉ 'n' :: cnt1 := by
    intro h
    rcases List.mem_cons.mp h with h | h
    · cases h
    · exact hcnt1u h
  have hnu2 : '_' ∉ 'n' :: cnt2 := by
    intro h
    rcases List.mem_cons.mp h with h | h
    · cases h
    · exact hcnt2u h
  obtain ⟨hnq, heq5⟩ := append_sep_inj hnu1 hnu2 heq4
  have hcntq : cnt1 = cnt2 := by injection hnq
  have hsd1 : '.' ∉ "seed".data ++ natDigits s1 := by
    intro h
    rcases List.mem_append.mp h with h | h
    · revert h; decide
    · exact natDigits_no_dot s1 h
  have hsd2 : '.' ∉ "seed".data ++ natDigits s2 := by
    intro h
    rcases List.mem_append.mp h with h | h
    · revert h; decide
    · exact natDigits_no_dot s2 h
  obtain ⟨hsq, hfq⟩ := append_sep_inj hsd1 hsd2 heq5
  have hsq' : s1 = s2 := natDigits_inj (List.append_cancel_left hsq)
  exact ⟨hcq, hmq', heq', hcntq, hfq, hsq'⟩

/-- Witness for the amended C4 at the tuple `("ggh", "4", 13, "100", "hepmc",
1)` (twice): all side conditions hold and the conclusion follows. -/
theorem derivedFilename_inj_witness :
    '_' ∉ "ggh".data ∧ '.' ∉ "hepmc".data ∧
      ("ggh".data = "ggh".data ∧ "4".data = "4".data ∧ (13 : Nat) = 13 ∧
        "100".data = "100".data ∧ "hepmc".data = "hepmc".data ∧ (1 : Nat) = 1) :=
  ⟨by decide, by decide,
    derivedFilename_inj "ggh".data "4".data "100".data "hepmc".data
      "ggh".data "4".data "100".data "hepmc".data 13 13 1 1
      (by decide) (by decide) (by decide)
      (by decide) (by decide) (by decide) (by decide) (by decide)
      (by decide) (by decide) (by decide)
      (by decide) (by decide) (by decide) (by decide) (by decide)
      rfl⟩

/-! ## JobPlanner: `generate_pythia_job` and `create_dag` from
`Pythia/submit_py8_jobs_htcondor_new.py`

`create_dag` first injects the mass into `args.args` **in place** (replacing
the value of `--mass`, or extending the list with `['--mass', mass]`), then
for each `job_ind` in `xrange(a, b + 1)` calls `generate_pythia_job`, which
copies `args.args`, appends `['--seed', job_ind]`, and for each format in
`['hepmc', 'root', 'lhe']` whose flag is present rewrites the output filename
to carry the seed suffix and records it in `output_files` (plus `.gz` when
`--zip` is present).  The seed and the mass are rendered with `str`/`%d`
(`natDigits`). -/

/-- A planned job: `ht.Job(name='%d_%s' % (job_index, channel), args=...,
output_files=...)`. -/
structure PyJob where
  name : Tok
  jobArgs : List Tok
  outputFiles : List Tok
deriving DecidableEq

/-- One iteration of the `for fmt in ['hepmc', 'root', 'lhe']` loop of
`generate_pythia_job` over the state `(exe_args, out_files)`; `argsArgs` is
the enclosing `args.args`.  `none` models an uncaught exception
(`KeyError` from a lookup, or `basename(None)`). -/
def processFmt (argsArgs : List Tok) (channel : Tok) (energy : Nat) (mass numEvents : Tok)
    (jobIndex : Nat) (st : List Tok × List Tok) (fmt : Tok) : Option (List Tok × List Tok) :=
  if '-' :: '-' :: fmt ∈ st.1 then
    (match get_option_in_args argsArgs ('-' :: '-' :: fmt) with
      | none => none
      | some r =>
        if truthy r then some st.1
        else set_option_in_args st.1 ('-' :: '-' :: fmt)
          (generate_filename channel mass energy numEvents fmt)).bind fun exe2 =>
      match get_option_in_args exe2 ('-' :: '-' :: fmt) with
      | none => none
      | some none => none
      | some (some v) =>
        (set_option_in_args exe2 ('-' :: '-' :: fmt)
            (splitextStem (pyBasename v) ++ "_seed".data ++ natDigits jobIndex
              ++ '.' :: fmt)).map fun exe3 =>
          (exe3,
            st.2 ++ [if "--zip".data ∈ exe3 then
                splitextStem (pyBasename v) ++ "_seed".data ++ natDigits jobIndex
                  ++ '.' :: fmt ++ ".gz".data
              else
                splitextStem (pyBasename v) ++ "_seed".data ++ natDigits jobIndex
                  ++ '.' :: fmt])
  else some st

/-- `generate_pythia_job(args, job_index, mass, num_events)`: copy `args.args`,
append `['--seed', job_index]`, run the `for fmt in ['hepmc', 'root', 'lhe']`
loop (unrolled over its literal list), and build the job. -/
def generate_pythia_job (argsArgs : List Tok) (channel : Tok) (energy : Nat)
    (jobIndex : Nat) (mass numEvents : Tok) : Option PyJob :=
  (processFmt argsArgs channel energy mass numEvents jobIndex
      (argsArgs ++ ["--seed".data, natDigits jobIndex], ([] : List Tok))
      "hepmc".data).bind fun st1 =>
    (processFmt argsArgs channel energy mass numEvents jobIndex st1 "root".data).bind fun st2 =>
      (processFmt argsArgs channel energy mass numEvents jobIndex st2 "lhe".data).map fun st3 =>
        ⟨natDigits jobIndex ++ '_' :: channel, st3.1, st3.2⟩

/-- The in-place mass injection of `create_dag` (lines 221–224): `args.args`
is mutated — the returned list is the caller's vector afterwards. -/
def massInject (argsArgs : List Tok) (mass : Tok) : Option (List Tok) :=
  if "--mass".data ∈ argsArgs then set_option_in_args argsArgs "--mass".data mass
  else some (argsArgs ++ ["--mass".data, mass])

/-- Python 2 `xrange(lo, hi)`. -/
def xrange (lo hi : Nat) : List Nat := List.range' lo (hi - lo)

/-- The seed loop of `create_dag`, pairing each job with the `job_ind` that
seeded it. -/
def planJobs (base : List Tok) (channel : Tok) (energy : Nat) (mass numEvents : Tok) :
    List Nat → Option (List (Nat × PyJob))
  | [] => some []
  | i :: is =>
    (generate_pythia_job base channel energy i mass numEvents).bind fun j =>
      (planJobs base channel energy mass numEvents is).map fun js => (i, j) :: js

/-- The planning core of `create_dag`: mass injection into the shared
`args.args`, then one `generate_pythia_job` per `job_ind` in
`xrange(a, b + 1)`.  Returns the caller's argument vector after planning
together with the seed-indexed jobs. -/
def create_dag (argsArgs : List Tok) (channel : Tok) (energy : Nat) (mass numEvents : Tok)
    (a b : Nat) : Option (List Tok × List (Nat × PyJob)) :=
  (massInject argsArgs mass).bind fun base =>
    (planJobs base channel energy mass numEvents (xrange a (b + 1))).map fun js => (base, js)

theorem planJobs_spec (base : List Tok) (channel : Tok) (energy : Nat) (mass numEvents : Tok) :
    ∀ (seeds : List Nat) (jobs : List (Nat × PyJob)),
      planJobs base channel energy mass numEvents seeds = some jobs →
      jobs.map Prod.fst = seeds ∧
        ∀ ij ∈ jobs, generate_pythia_job base channel energy ij.1 mass numEvents = some ij.2
  | [], jobs, h => by
    unfold planJobs at h
    injection h with h2
    subst h2
    exact ⟨rfl, by intro ij hij; cases hij⟩
  | i :: is, jobs, h => by
    unfold planJobs at h
    cases hg : generate_pythia_job base channel energy i mass numEvents with
    | none => rw [hg] at h; cases h
    | some j =>
      rw [hg] at h
      simp only [Option.bind] at h
      cases hp : planJobs base channel energy mass numEvents is with
      | none => rw [hp] at h; cases h
      | some js =>
        rw [hp] at h
        simp only [Option.map] at h
        injection h with h2
        subst h2
        obtain ⟨ih1, ih2⟩ := planJobs_spec base channel energy mass numEvents is js hp
        refine ⟨by simp [ih1], ?_⟩
        intro ij hij
        rcases List.mem_cons.mp hij with h3 | h3
        · subst h3; exact hg
        · exact ih2 ij h3

theorem append_two_ne (l : List Tok) (x y : Tok) : l ++ [x, y] ≠ l := by
  intro h
  have := congrArg List.length h
  simp at this

/-- Destructuring `create_dag`'s result. -/
theorem create_dag_parts {argsArgs : List Tok} {channel : Tok} {energy : Nat}
    {mass numEvents : Tok} {a b : Nat} {base : List Tok} {jobs : List (Nat × PyJob)}
    (h : create_dag argsArgs channel energy mass numEvents a b = some (base, jobs)) :
    massInject argsArgs mass = some base ∧
      planJobs base channel energy mass numEvents (xrange a (b + 1)) = some jobs := by
  unfold create_dag at h
  cases hmi : massInject argsArgs mass with
  | none => rw [hmi] at h; cases h
  | some base' =>
    rw [hmi] at h
    simp only [Option.bind] at h
    cases hpj : planJobs base' channel energy mass numEvents (xrange a (b + 1)) with
    | none => rw [hpj] at h; cases h
    | some js =>
      rw [hpj] at h
      simp only [Option.map] at h
      injection h with h2
      injection h2 with h3 h4
      subst h3
      subst h4
      exact ⟨rfl, hpj⟩

/-- **C9 counterexample.** The claim says the caller's base argument vector is
unchanged after planning.  `create_dag` mutates `args.args` in place when it
injects the swept mass: after planning, the caller's vector has gained
`['--mass', mass]`. -/
theorem create_dag_mutates_base_counterexample :
    (create_dag ["--card".data, "c".data] "c".data 13 "5".data "10".data 1 1).map Prod.fst
        = some (["--card".data, "c".data] ++ ["--mass".data, "5".data]) ∧
      ["--card".data, "c".data] ++ ["--mass".data, "5".data] ≠ ["--card".data, "c".data] := by
  decide

/-- **C9 (amended).** Each job's argument vector is built from a fresh copy of
the (mass-injected) shared vector: every emitted descriptor is a pure function
of that shared vector and its own seed alone, and generating all (sweep value,
seed) jobs leaves the shared vector equal to the result of the single mass
injection.  However the mass injection itself mutates the caller's base
vector in place: when `--mass` was absent, the caller's vector afterwards is
`base ++ ['--mass', mass]`, which differs from the original. -/
theorem create_dag_mutation (argsArgs : List Tok) (channel : Tok) (energy : Nat)
    (mass numEvents : Tok) (a b : Nat) (base : List Tok) (jobs : List (Nat × PyJob))
    (h : create_dag argsArgs channel energy mass numEvents a b = some (base, jobs)) :
    massInject argsArgs mass = some base ∧
      (∀ ij ∈ jobs, generate_pythia_job base channel energy ij.1 mass numEvents = some ij.2) ∧
      ("--mass".data ∉ argsArgs → base = argsArgs ++ ["--mass".data, mass] ∧ base ≠ argsArgs) := by
  obtain ⟨hmi, hpj⟩ := create_dag_parts h
  refine ⟨hmi, (planJobs_spec base channel energy mass numEvents _ jobs hpj).2, ?_⟩
  intro hnm
  unfold massInject at hmi
  rw [if_neg hnm] at hmi
  have hbase : base = argsArgs ++ ["--mass".data, mass] := (Option.some.inj hmi).symm
  exact ⟨hbase, by rw [hbase]; exact append_two_ne argsArgs _ _⟩

/-- Witness for the amended C9 at `args.args = ["--card", "c"]`, mass `5`,
seeds `[1, 1]`. -/
theorem create_dag_mutation_witness :
    ∃ (base : List Tok) (jobs : List (Nat × PyJob)),
      create_dag ["--card".data, "c".data] "c".data 13 "5".data "10".data 1 1
          = some (base, jobs) ∧
        massInject ["--card".data, "c".data] "5".data = some base ∧
        base ≠ ["--card".data, "c".data] := by
  cases hcd : create_dag ["--card".data, "c".data] "c".data 13 "5".data "10".data 1 1 with
  | none => exact absurd hcd (by decide)
  | some p =>
    obtain ⟨base, jobs⟩ := p
    have h := create_dag_mutation ["--card".data, "c".data] "c".data 13 "5".data "10".data
      1 1 base jobs hcd
    exact ⟨base, jobs, rfl, h.1, (h.2.2 (by decide)).2⟩

theorem natDigits_head_not_dash (n : Nat) (t : List Char) : natDigits n ≠ '-' :: t := by
  intro h
  have hm : '-' ∈ natDigits n := by rw [h]; exact List.mem_cons_self _ _
  rcases natDigits_digit hm with h' | h' | h' | h' | h' | h' | h' | h' | h' | h' <;> cases h'

theorem splitextStem_no_dot {p : List Char} (h : '.' ∉ p) : splitextStem p = p := by
  unfold splitextStem
  rw [lastIdxOf_eq_none h]

theorem mem_of_mem_set {a y : Tok} : ∀ {l : List Tok} {n : Nat}, y ∈ l.set n a → y ∈ l ∨ y = a
  | [], n, h => by simp at h
  | c :: cs, 0, h => by
    rcases List.mem_cons.mp h with h' | h'
    · exact Or.inr h'
    · exact Or.inl (List.mem_cons_of_mem c h')
  | c :: cs, n + 1, h => by
    rcases List.mem_cons.mp h with h' | h'
    · exact Or.inl (h' ▸ List.mem_cons_self c cs)
    · rcases mem_of_mem_set h' with h'' | h''
      · exact Or.inl (List.mem_cons_of_mem c h'')
      · exact Or.inr h''

theorem mem_set_of_getElem?_ne {a : Tok} :
    ∀ {l : List Tok} {n : Nat} {y x : Tok}, y ∈ l → l[n]? = some x → x ≠ y → y ∈ l.set n a
  | c :: cs, 0, y, x, hy, hx, hxy => by
    have hc : c = x := by simpa using hx
    rcases List.mem_cons.mp hy with h' | h'
    · exact absurd (h'.trans hc).symm hxy
    · exact List.mem_cons_of_mem a h'
  | c :: cs, n + 1, y, x, hy, hx, hxy => by
    rw [List.getElem?_cons_succ] at hx
    rcases List.mem_cons.mp hy with h' | h'
    · exact h' ▸ List.mem_cons_self c _
    · exact List.mem_cons_of_mem c (mem_set_of_getElem?_ne h' hx hxy)

theorem firstIdx_append_of_mem {f : Tok} : ∀ {v : List Tok} (w : List Tok), f ∈ v →
    firstIdx f (v ++ w) = firstIdx f v
  | t :: ts, w, h => by
    by_cases ht : t = f
    · simp [firstIdx, ht]
    · have hmem : f ∈ ts := by
        rcases List.mem_cons.mp h with h' | h'
        · exact absurd h'.symm ht
        · exact h'
      show firstIdx f (t :: (ts ++ w)) = _
      simp only [firstIdx, if_neg ht]
      rw [firstIdx_append_of_mem w hmem]

theorem getLast?_append_two (v : List Tok) (x y : Tok) :
    (v ++ [x, y]).getLast? = some y := by
  have h : v ++ [x, y] = (v ++ [x]) ++ [y] := by simp
  rw [h]
  exact List.getLast?_concat _

/-- A value lookup survives appending tokens, as long as the new last token is
not the flag. -/
theorem get_option_append {base : List Tok} {f u : Tok} (w : List Tok)
    (hu : get_option_in_args base f = some (some u))
    (hlast : (base ++ w).getLast? ≠ some f) :
    get_option_in_args (base ++ w) f = some (some u) := by
  obtain ⟨h1, h2, h3, h4⟩ := (get_eq_some_some base f u).mp hu
  have hiv : base[firstIdx f base]? = some f := getElem?_firstIdx h1
  have hilt : firstIdx f base < base.length := firstIdx_lt_length h1
  have hlen1 : firstIdx f base + 1 < base.length := by
    rcases Nat.lt_or_ge (firstIdx f base + 1) base.length with h | h
    · exact h
    · exfalso
      apply h2
      rw [getLast?_eq_getElem?, show base.length - 1 = firstIdx f base from by omega]
      exact hiv
  refine (get_eq_some_some (base ++ w) f u).mpr
    ⟨List.mem_append_left w h1, hlast, ?_, h4⟩
  rw [firstIdx_append_of_mem w h1, List.getElem?_append, if_pos hlen1]
  exact h3

theorem processFmt_skip (argsArgs : List Tok) (channel : Tok) (energy : Nat)
    (mass numEvents : Tok) (i : Nat) (st : List Tok × List Tok) (fmt : Tok)
    (h : ('-' :: '-' :: fmt) ∉ st.1) :
    processFmt argsArgs channel energy mass numEvents i st fmt = some st := by
  unfold processFmt
  rw [if_neg h]

/-- A `--<fmt>`-style token absent from the base vector is also absent from
the seed-extended job vector. -/
theorem dashtok_not_mem_exe0 {base : List Tok} {i : Nat} {t : Tok}
    (hb : ('-' :: '-' :: t) ∉ base) (hseed : ('-' :: '-' :: t) ≠ "--seed".data) :
    ('-' :: '-' :: t) ∉ base ++ ["--seed".data, natDigits i] := by
  intro hin
  rcases List.mem_append.mp hin with h' | h'
  · exact hb h'
  · rcases List.mem_cons.mp h' with h'' | h''
    · exact hseed h''
    · rcases List.mem_cons.mp h'' with h3 | h3
      · exact natDigits_head_not_dash i _ h3.symm
      · cases h3

/-- When none of the output-format flags is present, `generate_pythia_job`
only appends the seed and declares no output files. -/
theorem generate_pythia_job_no_flags (base : List Tok) (channel : Tok) (energy : Nat)
    (i : Nat) (mass numEvents : Tok)
    (hh : "--hepmc".data ∉ base) (hr : "--root".data ∉ base) (hl : "--lhe".data ∉ base) :
    generate_pythia_job base channel energy i mass numEvents
      = some ⟨natDigits i ++ '_' :: channel, base ++ ["--seed".data, natDigits i], []⟩ := by
  unfold generate_pythia_job
  rw [processFmt_skip base channel energy mass numEvents i _ "hepmc".data
      (dashtok_not_mem_exe0 hh (by decide))]
  simp only [Option.bind]
  rw [processFmt_skip base channel energy mass numEvents i _ "root".data
      (dashtok_not_mem_exe0 hr (by decide))]
  simp only [Option.bind]
  rw [processFmt_skip base channel energy mass numEvents i _ "lhe".data
      (dashtok_not_mem_exe0 hl (by decide))]
  simp only [Option.map]

/-- The `hepmc` iteration of the format loop when the user supplied a
nonempty, separator-free value `u` for `--hepmc` and `--zip` is present: the
flag's value is replaced in the job vector by the seed-suffixed name, and that
name plus `.gz` is recorded as the job's output file. -/
theorem processFmt_hepmc (base : List Tok) (channel : Tok) (energy : Nat)
    (mass numEvents u : Tok) (i : Nat)
    (hu : get_option_in_args base "--hepmc".data = some (some u))
    (hune : u ≠ []) (hus : '/' ∉ u) (hud : '.' ∉ u)
    (hzip : "--zip".data ∈ base) :
    processFmt base channel energy mass numEvents i
        (base ++ ["--seed".data, natDigits i], ([] : List Tok)) "hepmc".data
      = some ((base ++ ["--seed".data, natDigits i]).set
            (firstIdx "--hepmc".data base + 1)
            (u ++ "_seed".data ++ natDigits i ++ '.' :: "hepmc".data),
          [u ++ "_seed".data ++ natDigits i ++ '.' :: "hepmc".data ++ ".gz".data]) := by
  obtain ⟨h1, h2, h3, h4⟩ := (get_eq_some_some base "--hepmc".data u).mp hu
  have hiv : base[firstIdx "--hepmc".data base]? = some "--hepmc".data := getElem?_firstIdx h1
  have hilt : firstIdx "--hepmc".data base < base.length := firstIdx_lt_length h1
  have hlen1 : firstIdx "--hepmc".data base + 1 < base.length := by
    rcases Nat.lt_or_ge (firstIdx "--hepmc".data base + 1) base.length with h | h
    · exact h
    · exfalso
      apply h2
      rw [getLast?_eq_getElem?,
        show base.length - 1 = firstIdx "--hepmc".data base from by omega]
      exact hiv
  have hbv : base[firstIdx "--hepmc".data base + 1]? = some u := by
    cases hbv' : base[firstIdx "--hepmc".data base + 1]? with
    | none =>
      rw [hbv'] at h3
      simp only [Option.getD_none] at h3
      exact absurd h3.symm hune
    | some w =>
      rw [hbv'] at h3
      simp only [Option.getD_some] at h3
      rw [h3]
  have hlast0 : (base ++ ["--seed".data, natDigits i]).getLast? = some (natDigits i) :=
    getLast?_append_two base _ _
  have hlastne : (base ++ ["--seed".data, natDigits i]).getLast? ≠ some "--hepmc".data := by
    rw [hlast0]
    intro hcon
    exact natDigits_head_not_dash i "-hepmc".data (Option.some.inj hcon)
  have hget0 : get_option_in_args (base ++ ["--seed".data, natDigits i]) "--hepmc".data
      = some (some u) := get_option_append _ hu hlastne
  have htr : truthy (some u) = true := by
    cases u with
    | nil => exact absurd rfl hune
    | cons a as => rfl
  have hmem0 : "--hepmc".data ∈ base ++ ["--seed".data, natDigits i] :=
    List.mem_append_left _ h1
  have hk0 : firstIdx "--hepmc".data (base ++ ["--seed".data, natDigits i])
      = firstIdx "--hepmc".data base := firstIdx_append_of_mem _ h1
  have hstem : splitextStem (pyBasename u) = u := by
    rw [pyBasename_no_slash hus]
    exact splitextStem_no_dot hud
  have hset : set_option_in_args (base ++ ["--seed".data, natDigits i]) "--hepmc".data
      (u ++ "_seed".data ++ natDigits i ++ '.' :: "hepmc".data)
      = some ((base ++ ["--seed".data, natDigits i]).set
          (firstIdx "--hepmc".data base + 1)
          (u ++ "_seed".data ++ natDigits i ++ '.' :: "hepmc".data)) := by
    simp only [set_option_in_args, hget0]
    rw [if_pos htr, hk0]
  have hexe0v : (base ++ ["--seed".data, natDigits i])[firstIdx "--hepmc".data base + 1]?
      = some u := by
    rw [List.getElem?_append, if_pos hlen1]
    exact hbv
  have huzip : u ≠ "--zip".data := by
    intro he
    rw [he] at h4
    exact absurd h4 (by decide)
  have hzip3 : "--zip".data ∈ (base ++ ["--seed".data, natDigits i]).set
      (firstIdx "--hepmc".data base + 1)
      (u ++ "_seed".data ++ natDigits i ++ '.' :: "hepmc".data) :=
    mem_set_of_getElem?_ne (List.mem_append_left _ hzip) hexe0v huzip
  unfold processFmt
  rw [show ('-' :: '-' :: "hepmc".data : List Char) = "--hepmc".data from rfl]
  rw [if_pos hmem0]
  simp only [hu, htr, if_true, Option.bind, hget0, hstem, hset, Option.map, hzip3,
    List.nil_append]

/-- Under the same conditions, the whole of `generate_pythia_job`: the `root`
and `lhe` iterations skip (their flags are absent, and the rewritten `hepmc`
value cannot collide with a flag since it contains `'.'`), and the job
declares exactly the one seed-suffixed `.gz` output name. -/
theorem generate_pythia_job_hepmc (base : List Tok) (channel : Tok) (energy : Nat)
    (mass numEvents u : Tok) (i : Nat)
    (hu : get_option_in_args base "--hepmc".data = some (some u))
    (hune : u ≠ []) (hus : '/' ∉ u) (hud : '.' ∉ u)
    (hzip : "--zip".data ∈ base)
    (hroot : "--root".data ∉ base) (hlhe : "--lhe".data ∉ base) :
    generate_pythia_job base channel energy i mass numEvents
      = some ⟨natDigits i ++ '_' :: channel,
          (base ++ ["--seed".data, natDigits i]).set (firstIdx "--hepmc".data base + 1)
            (u ++ "_seed".data ++ natDigits i ++ '.' :: "hepmc".data),
          [u ++ "_seed".data ++ natDigits i ++ '.' :: "hepmc".data ++ ".gz".data]⟩ := by
  have hstep1 := processFmt_hepmc base channel energy mass numEvents u i hu hune hus hud hzip
  have hdotmem : '.' ∈ u ++ "_seed".data ++ natDigits i ++ '.' :: "hepmc".data :=
    List.mem_append_right _ (List.mem_cons_self _ _)
  have hroot3 : ('-' :: '-' :: "root".data : List Char)
      ∉ (base ++ ["--seed".data, natDigits i]).set
        (firstIdx "--hepmc".data base + 1)
        (u ++ "_seed".data ++ natDigits i ++ '.' :: "hepmc".data) := by
    intro hmem
    rcases mem_of_mem_set hmem with h' | h'
    · exact dashtok_not_mem_exe0 hroot (by decide) h'
    · rw [← h'] at hdotmem
      exact absurd hdotmem (by decide)
  have hlhe3 : ('-' :: '-' :: "lhe".data : List Char)
      ∉ (base ++ ["--seed".data, natDigits i]).set
        (firstIdx "--hepmc".data base + 1)
        (u ++ "_seed".data ++ natDigits i ++ '.' :: "hepmc".data) := by
    intro hmem
    rcases mem_of_mem_set hmem with h' | h'
    · exact dashtok_not_mem_exe0 hlhe (by decide) h'
    · rw [← h'] at hdotmem
      exact absurd hdotmem (by decide)
  unfold generate_pythia_job
  rw [hstep1]
  simp only [Option.bind]
  rw [processFmt_skip base channel energy mass numEvents i _ "root".data hroot3]
  simp only [Option.bind]
  rw [processFmt_skip base channel energy mass numEvents i _ "lhe".data hlhe3]
  simp only [Option.map]

/-- **C2 counterexample.** With seed range `[1, 2]` and no output-format flag
in the argument vector, planning emits two descriptors with distinct seeds but
identical (empty) output filename sets — the claimed pairwise distinctness of
filename sets fails. -/
theorem create_dag_filename_sets_counterexample :
    ((create_dag ["--card".data, "c".data] "c".data 13 "5".data "10".data 1 2).map
        fun p => p.2.map fun ij => ij.2.outputFiles) = some [[], []] ∧
      ((create_dag ["--card".data, "c".data] "c".data 13 "5".data "10".data 1 2).map
        fun p => p.2.map fun ij => ij.1) = some [1, 2] := by
  decide

/-- **C2 (amended).** For every seed range `[a, b]` with `1 ≤ a ≤ b`, planning
produces exactly `b - a + 1` job descriptors per sweep point — one per integer
seed from `a` to `b` inclusive, in order — and their seeds are pairwise
distinct.  The output filename sets are **not** always pairwise distinct: when
no output-format flag (`--hepmc`/`--root`/`--lhe`) is present, every
descriptor's filename set is empty.  When `--hepmc` carries a nonempty
separator-free user value and `--zip` is present (as the submitter guarantees)
and the other format flags are absent, each descriptor declares exactly one
seed-suffixed filename and the filename sets are pairwise distinct. -/
theorem create_dag_plan (argsArgs : List Tok) (channel : Tok) (energy : Nat)
    (mass numEvents : Tok) (a b : Nat) (base : List Tok) (jobs : List (Nat × PyJob))
    (ha : 1 ≤ a) (hab : a ≤ b)
    (h : create_dag argsArgs channel energy mass numEvents a b = some (base, jobs)) :
    jobs.length = b - a + 1 ∧
      jobs.map Prod.fst = xrange a (b + 1) ∧
      (jobs.map Prod.fst).Nodup ∧
      (("--hepmc".data ∉ base ∧ "--root".data ∉ base ∧ "--lhe".data ∉ base) →
        ∀ ij ∈ jobs, ij.2.outputFiles = []) ∧
      (∀ u : Tok, get_option_in_args base "--hepmc".data = some (some u) → u ≠ [] →
        '/' ∉ u → '.' ∉ u → "--zip".data ∈ base →
        "--root".data ∉ base → "--lhe".data ∉ base →
        List.Pairwise (fun p q : Nat × PyJob => p.2.outputFiles ≠ q.2.outputFiles) jobs) := by
  obtain ⟨hmi, hpj⟩ := create_dag_parts h
  obtain ⟨hfst, hgen⟩ := planJobs_spec base channel energy mass numEvents _ jobs hpj
  have hlen : jobs.length = b - a + 1 := by
    have hl := congrArg List.length hfst
    simp only [List.length_map] at hl
    rw [hl]
    unfold xrange
    rw [List.length_range']
    omega
  have hnd : (jobs.map Prod.fst).Nodup := by
    rw [hfst]
    unfold xrange
    exact List.nodup_range' a (b + 1 - a) 1 (by omega)
  refine ⟨hlen, hfst, hnd, ?_, ?_⟩
  · rintro ⟨hh, hr, hl⟩ ij hij
    have hg := hgen ij hij
    rw [generate_pythia_job_no_flags base channel energy ij.1 mass numEvents hh hr hl] at hg
    rw [← Option.some.inj hg]
  · intro u hu hune hus hud hzip hroot hlhe
    have hout : ∀ ij ∈ jobs, ij.2.outputFiles
        = [u ++ "_seed".data ++ natDigits ij.1 ++ '.' :: "hepmc".data ++ ".gz".data] := by
      intro ij hij
      have hg := hgen ij hij
      rw [generate_pythia_job_hepmc base channel energy mass numEvents u ij.1
        hu hune hus hud hzip hroot hlhe] at hg
      rw [← Option.some.inj hg]
    have hpair1 : List.Pairwise (fun p q : Nat × PyJob => p.1 ≠ q.1) jobs :=
      List.pairwise_map.mp hnd
    refine List.Pairwise.imp_of_mem ?_ hpair1
    intro p q hp hq hne
    rw [hout p hp, hout q hq]
    intro heq
    apply hne
    have hx : u ++ "_seed".data ++ natDigits p.1 ++ '.' :: "hepmc".data ++ ".gz".data
        = u ++ "_seed".data ++ natDigits q.1 ++ '.' :: "hepmc".data ++ ".gz".data := by
      injection heq
    have hxx : u ++ ("_seed".data ++ (natDigits p.1 ++ '.' :: ("hepmc".data ++ ".gz".data)))
        = u ++ ("_seed".data ++ (natDigits q.1 ++ '.' :: ("hepmc".data ++ ".gz".data))) := by
      simpa [List.append_assoc] using hx
    have h5 := List.append_cancel_left hxx
    have h6 := List.append_cancel_left h5
    have h7 := append_sep_inj (natDigits_no_dot p.1) (natDigits_no_dot q.1) h6
    exact natDigits_inj h7.1

/-- Witness for the amended C2: seed range `[1, 2]` with a user-specified
`--hepmc out` value and `--zip`: two descriptors, distinct seeds, pairwise
distinct filename sets. -/
theorem create_dag_plan_witness :
    ∃ (base : List Tok) (jobs : List (Nat × PyJob)),
      create_dag ["--card".data, "c".data, "--hepmc".data, "out".data, "--zip".data]
          "c".data 13 "5".data "10".data 1 2 = some (base, jobs) ∧
        jobs.length = 2 ∧ (jobs.map Prod.fst).Nodup ∧
        List.Pairwise (fun p q : Nat × PyJob => p.2.outputFiles ≠ q.2.outputFiles) jobs := by
  cases hcd : create_dag ["--card".data, "c".data, "--hepmc".data, "out".data, "--zip".data]
      "c".data 13 "5".data "10".data 1 2 with
  | none => exact absurd hcd (by decide)
  | some p =>
    obtain ⟨base, jobs⟩ := p
    have h := create_dag_plan ["--card".data, "c".data, "--hepmc".data, "out".data,
      "--zip".data] "c".data 13 "5".data "10".data 1 2 base jobs
      (by decide) (by decide) hcd
    have hmi := (create_dag_parts hcd).1
    have hmi2 : massInject ["--card".data, "c".data, "--hepmc".data, "out".data,
        "--zip".data] "5".data
        = some ["--card".data, "c".data, "--hepmc".data, "out".data, "--zip".data,
          "--mass".data, "5".data] := by decide
    rw [hmi2] at hmi
    have hbase := Option.some.inj hmi
    subst hbase
    refine ⟨_, jobs, rfl, h.1, h.2.2.1, ?_⟩
    exact h.2.2.2.2 "out".data (by decide) (by decide) (by decide) (by decide)
      (by decide) (by decide) (by decide)

end NMSSM
